import Mathlib

/-!
Verification of the simv concurrent data-flow pipeline (Go).

Shallow embedding of the repository's core: the transform chain, the
Value sink's consumer loop, its lifecycle state machine, the seed
registry, and the periodic clock. Go functions that may panic are
embedded as Option- or Except-valued functions (`none` / `.error`
models a panic); all operations that the code runs under the sink's
exclusive lock are modelled as atomic steps of a trace semantics, so an
arbitrary concurrent execution corresponds to some linear sequence of
those steps.
-/

namespace Simv

/-! ## Transforms (src/value/value.go, transform.Transformation)

A transform is a named step Apply(input, state) -> new value. A Go
Apply call may panic: `apply x s = none` models that panic. -/

/-- Embeds `transform.Transformation[T]`: a named pure step.
`apply input state = none` models a panicking Apply call. -/
structure Transformation (α : Type) where
  name : String
  apply : α → α → Option α

variable {α : Type}

/-- Embeds the transform loop of `run` (src/value/value.go lines 173-186):
`transformed` threads from one transform to the next, while every
`Apply` observes the same pre-update state `s` (each call reads
`v.current` through GetState, and `v.current` is only written by
`setState` after the whole loop). A panic aborts the rest of the chain. -/
def chainApply (ts : List (Transformation α)) (x s : α) : Option α :=
  match ts with
  | [] => some x
  | t :: rest =>
    match t.apply x s with
    | none => none
    | some y => chainApply rest y s

/-- One recorded transform application: the input it was given, the
value it produced, and the sink state it observed through GetState. -/
structure TransApp (α : Type) where
  name : String
  input : α
  output : α
  stateSeen : α
deriving DecidableEq, Repr

/-- Instrumented transform loop: the same computation as `chainApply`,
also recording, for each completed Apply call, its input, output and
the state it observed. Mirrors src/value/value.go lines 173-186. -/
def chainTrace (ts : List (Transformation α)) (x s : α) :
    List (TransApp α) × Option α :=
  match ts with
  | [] => ([], some x)
  | t :: rest =>
    match t.apply x s with
    | none => ([], none)
    | some y =>
      let r := chainTrace rest y s
      (⟨t.name, x, y, s⟩ :: r.1, r.2)

/-! ## The consumer task `run` (src/value/value.go lines 153-194)

`run` ranges over the source channel; per item it takes `v.mu.Lock()`,
applies the chain, commits via `setState`, increments `updateCount`,
and calls `v.mu.Unlock()`. The deferred `recover` wraps the whole
function (not one iteration), and `close(v.done)` is also deferred: a
panicking Apply therefore ends the loop with the mutex still held and
the done channel closed. -/

/-- The observable outcome of the consumer goroutine: final committed
state, number of committed updates, whether `v.mu` is left held, and
whether the `done` channel was closed. -/
structure RunRes (α : Type) where
  current : α
  updateCount : Nat
  lockHeld : Bool
  doneClosed : Bool
deriving DecidableEq, Repr

/-- Embeds `run` processing a list of received items (the hook-free
path, `getUpdateHook = nil`). Per item: lock, apply the chain, commit
and count on success; on a panicking Apply the deferred recover ends
the function with the mutex never unlocked, and the deferred close
still closes `done`. When the channel closes normally the loop ends
with the lock released and `done` closed. -/
def runLoop (ts : List (Transformation α)) :
    List α → α → Nat → RunRes α
  | [], cur, cnt => ⟨cur, cnt, false, true⟩
  | x :: rest, cur, cnt =>
    match chainApply ts x cur with
    | some y => runLoop ts rest y (cnt + 1)
    | none => ⟨cur, cnt, true, true⟩

/-- The consumer goroutine started by `Start`, from initial state
`init` (the Go zero value) with update count 0. -/
def runP (ts : List (Transformation α)) (items : List α) (init : α) :
    RunRes α :=
  runLoop ts items init 0

/-- Final state of processing items when every chain application
succeeds (`none` as soon as one item panics the chain). -/
def procAll (ts : List (Transformation α)) : List α → α → Option α
  | [], c => some c
  | x :: rest, c =>
    match chainApply ts x c with
    | none => none
    | some y => procAll ts rest y

/-- Embeds a `Value()` call against a terminated consumer: both the
reset-on-read path (`v.mu.Lock()`) and the plain path (`v.mu.RLock()`)
first acquire `v.mu`; if `run` left the write lock held the call blocks
forever, modelled as `none`. -/
def valueReadAfter (r : RunRes α) : Option α :=
  if r.lockHeld then none else some r.current

/-- Embeds a `Stats()` call against a terminated consumer: `Stats`
acquires `v.mu.RLock()`, so it blocks forever (`none`) if `run` left
the write lock held. -/
def statsReadAfter (r : RunRes α) : Option (Nat × α) :=
  if r.lockHeld then none else some (r.updateCount, r.current)

/-- Embeds the return of `Stop()` (src/value/value.go lines 108-113):
`stopOnce.Do` waits on `<-v.done`, so Stop returns exactly when the
done channel has been closed. -/
def stopReturns (r : RunRes α) : Bool :=
  r.doneClosed

/-! ## Update hooks (src/value/value.go, UpdateHook)

`UpdateHook[T]` is the observer interface with OnInput, OnTransform and
AfterUpdate. The only behaviour of a hook the pipeline can observe is
whether a given notification call panics, so a hook is embedded as
three fault predicates; `safeHookCall` (lines 215-222) recovers any
panic, so a faulting notification is contained. -/

/-- Embeds `UpdateHook[T]`: for each notification point, whether the
hook call panics on the given arguments (`true` = it panics). -/
structure UpdateHook (α : Type) where
  onInputFaults : α → α → Bool
  onTransformFaults : String → α → α → α → Bool
  afterUpdateFaults : α → Bool

/-- One hook notification as issued by the consumer loop, with the
arguments passed and whether the hook faulted inside `safeHookCall`. -/
inductive HookEv (α : Type) where
  | onInput (input state : α) (faulted : Bool)
  | onTransform (name : String) (input output state : α) (faulted : Bool)
  | afterUpdate (newState : α) (faulted : Bool)
deriving DecidableEq, Repr

/-- The transform loop with per-transform hook notifications
(src/value/value.go lines 173-186): after each successful Apply the
hook's OnTransform is run inside `safeHookCall`. Returns the chain
result and the notification events issued. -/
def hookChain (h : Option (UpdateHook α)) (ts : List (Transformation α))
    (x s : α) : Option α × List (HookEv α) :=
  match ts with
  | [] => (some x, [])
  | t :: rest =>
    match t.apply x s with
    | none => (none, [])
    | some y =>
      let evs :=
        match h with
        | some hb => [HookEv.onTransform t.name x y s
            (hb.onTransformFaults t.name x y s)]
        | none => []
      let r := hookChain h rest y s
      (r.1, evs ++ r.2)

/-- Embeds one iteration of `run` with a hook installed
(src/value/value.go lines 162-192): OnInput inside `safeHookCall`, the
chain with per-transform notifications, then `setState` (commit, then
AfterUpdate inside `safeHookCall`) and the updateCount increment.
Returns `some (newCurrent, newCount)` unless a transform panicked, and
the list of notifications issued. Hook faults are recovered by
`safeHookCall` and never alter the state outcome. -/
def processItem (ts : List (Transformation α)) (h : Option (UpdateHook α))
    (x cur : α) (cnt : Nat) : Option (α × Nat) × List (HookEv α) :=
  let evIn :=
    match h with
    | some hb => [HookEv.onInput x cur (hb.onInputFaults x cur)]
    | none => []
  match hookChain h ts x cur with
  | (none, evs) => (none, evIn ++ evs)
  | (some fin, evs) =>
    let evAfter :=
      match h with
      | some hb => [HookEv.afterUpdate fin (hb.afterUpdateFaults fin)]
      | none => []
    (some (fin, cnt + 1), evIn ++ evs ++ evAfter)

/-! ## The Value sink's lifecycle state (src/value/value.go)

The configuration and state fields of `Value[T]`, with each exported
method embedded as a state transition. A Go panic is `.error msg`: the
call aborts and, because every lifecycle check precedes any mutation in
the source, an aborted call leaves the state untouched (the error
constructor carries no successor state). -/

/-- Embeds the fields of `Value[T]` that its methods read or write.
`updateHook` embeds the `atomic.Value` box: `none` is the initial
(never stored) nil box. -/
structure Value (α : Type) where
  transforms : List (Transformation α)
  resetOnRead : Bool
  resetValue : α
  started : Bool
  current : α
  updateCount : Nat
  updateHook : Option (UpdateHook α)

/-- Embeds `New` (src/value/value.go lines 50-55): zero configuration,
not started; `init` is the Go zero value of T. -/
def Value.New (init : α) : Value α :=
  ⟨[], false, init, false, init, 0, none⟩

/-- Embeds `AddTransform` (lines 60-66): panics after Start, otherwise
appends to the pipeline. -/
def Value.AddTransform (v : Value α) (t : Transformation α) :
    Except String (Value α) :=
  if v.started then Except.error "cannot add transform after Start()"
  else Except.ok { v with transforms := v.transforms ++ [t] }

/-- Embeds `EnableResetOnRead` (lines 71-78): panics after Start,
otherwise sets the reset mode and value. -/
def Value.EnableResetOnRead (v : Value α) (rv : α) :
    Except String (Value α) :=
  if v.started then Except.error "cannot enable reset-on-read after Start()"
  else Except.ok { v with resetOnRead := true, resetValue := rv }

/-- Embeds `Start` (lines 96-103): `started.CompareAndSwap(false,true)`
fails on a second call and the method panics; on success the flag flips
(subscription and goroutine spawn are modelled by the run/trace
semantics). -/
def Value.Start (v : Value α) : Except String (Value α) :=
  if v.started then Except.error "already started"
  else Except.ok { v with started := true }

/-- Embeds `SetUpdateHook` (lines 83-90) together with Go's
`sync/atomic.Value.Store` semantics. For a nil hook the code stores
`(UpdateHook[T])(nil)`: `UpdateHook[T]` is an interface type, so this
conversion is still the nil interface value, it boxes to a nil `any`,
and `atomic.Value.Store(nil)` panics with "store of nil value". For a
non-nil hook the box is replaced; no lifecycle flag is checked. -/
def Value.SetUpdateHook (v : Value α) (hook : Option (UpdateHook α)) :
    Except String (Value α) :=
  match hook with
  | none => Except.error "sync/atomic: store of nil value into Value"
  | some h => Except.ok { v with updateHook := some h }

/-- The snapshot `ValueStats[T]` (src/value/value.go lines 16-20). -/
structure ValueStats (α : Type) where
  UpdateCount : Nat
  CurrentValue : α
  TransformCount : Nat
deriving DecidableEq, Repr

/-- Embeds `Stats` (lines 133-142): reads updateCount, current and the
transform count under `mu.RLock`; the body performs no write. -/
def Value.Stats (v : Value α) : ValueStats α :=
  ⟨v.updateCount, v.current, v.transforms.length⟩

/-- Embeds `Value()` (lines 117-130) as a state transition with the
returned value: with reset-on-read, under `mu.Lock` the current state
is captured, overwritten with the reset value and returned; otherwise
the state is only read under `mu.RLock`. -/
def Value.read (v : Value α) : Value α × α :=
  if v.resetOnRead then ({ v with current := v.resetValue }, v.current)
  else (v, v.current)

/-- The operations that touch the sink's locked state once it runs:
an external `Value()` call, an external `Stats()` call, and one
consumer-task update for a received item. Each holds `v.mu`, so any
concurrent execution linearises into a list of these. -/
inductive VOp (α : Type) where
  | valueCall
  | statsCall
  | update (x : α)

/-- True exactly for the `Stats()` operation. -/
def VOp.isStats : VOp α → Bool
  | .statsCall => true
  | _ => false

/-- The state transition of one linearised operation: `Stats` only
reads (lines 133-142); `Value()` is `Value.read`; an update commits the
chain result and increments the counter (lines 162-192; a panicking
chain is modelled separately by `runLoop`, which also ends the loop). -/
def Value.step (v : Value α) : VOp α → Value α
  | .statsCall => v
  | .valueCall => (v.read).1
  | .update x =>
    match chainApply v.transforms x v.current with
    | some y => { v with current := y, updateCount := v.updateCount + 1 }
    | none => v

/-- A linearised sequence of locked operations applied in order. -/
def Value.execOps (v : Value α) (l : List (VOp α)) : Value α :=
  l.foldl Value.step v

/-! ## Reset-on-read conservation (src/value/value.go lines 117-125,
162-192)

For the canonical delta-counter configuration of the claim (accumulate
transform, reset value 0, state over Int) the locked operations are:
a consumer commit `state + x` and a read-and-reset returning the
captured state. Both hold the exclusive lock, so every concurrent
execution is some interleaving, i.e. a list of these atomic events. -/

/-- One serialised lock-holding event of the delta-counter Value:
a consumer-task commit of a raw update `x`, or a reset-on-read
`Value()` call. -/
inductive RWOp where
  | commit (x : ℤ)
  | readReset
deriving DecidableEq, Repr

/-- The atomic step of one event on the locked state: a commit adds the
raw update (accumulate transform), a read-and-reset captures the state,
overwrites it with 0 and returns the captured value. -/
def rwStep (s : ℤ) : RWOp → ℤ × Option ℤ
  | .commit x => (s + x, none)
  | .readReset => (0, some s)

/-- Executes a list of serialised events from state `s`: the final
state and the values returned by the reset-on-read calls, in order. -/
def rwExec (s : ℤ) : List RWOp → ℤ × List ℤ
  | [] => (s, [])
  | e :: rest =>
    let p := rwStep s e
    let r := rwExec p.1 rest
    (r.1, (p.2.toList) ++ r.2)

/-- The sum of raw updates committed in a list of events. -/
def sumCommits : List RWOp → ℤ
  | [] => 0
  | .commit x :: rest => x + sumCommits rest
  | .readReset :: rest => sumCommits rest

/-- The sum of all values returned by reset-on-read calls in a window
executed from state `s`. -/
def sumReads (s : ℤ) (w : List RWOp) : ℤ :=
  ((rwExec s w).2).sum

/-- The state pending after executing a trace from state `s`. -/
def stateAfter (s : ℤ) (t : List RWOp) : ℤ :=
  (rwExec s t).1

/-- C1 exactly as the claim states it: over any window of any trace,
the sum of values returned by reset-on-read calls in the window equals
the sum of raw updates committed in the window. -/
def resetOnReadWindowClaim : Prop :=
  ∀ (pre w : List RWOp), sumReads (stateAfter 0 pre) w = sumCommits w

/-! ## Stop, drain and the post-stop frame (src/value/value.go lines
105-113, 153-160)

Events of one Value's lifetime around shutdown: a committed consumer
update, the upstream channel closing, the consumer goroutine exiting
(which closes `done`), a `Stop()` call returning, and an external
reset-on-read `Value()` call. The code forces the order: updates only
before the channel closes, the goroutine exits only after it closes,
and `Stop` returns only once `done` is closed (`stopOnce.Do` blocks on
`<-v.done`, and `sync.Once` makes later calls wait for the first).
`Value()` has no lifecycle check and can run at any time. -/

/-- One event in the lifetime of a started Value. -/
inductive LifeEv where
  | proc (x : ℤ)
  | uclose
  | vexit
  | stopRet
  | readR
deriving DecidableEq, Repr

/-- The phases of a started Value's shutdown: upstream still open,
upstream closed but goroutine still finishing, and goroutine exited. -/
inductive Phase where
  | live
  | closing
  | stopped
deriving DecidableEq, Repr

/-- The order automaton the code enforces: while live, updates and
reads; after `close`, reads until the goroutine exits; after exit,
reads and Stop returns (Stop can only return here because `done`
closes at exit). -/
def phaseStep : Phase → LifeEv → Option Phase
  | .live, .proc _ => some .live
  | .live, .readR => some .live
  | .live, .uclose => some .closing
  | .closing, .readR => some .closing
  | .closing, .vexit => some .stopped
  | .stopped, .readR => some .stopped
  | .stopped, .stopRet => some .stopped
  | _, _ => none

/-- Runs the order automaton over a trace; `none` when the trace
violates an ordering the code enforces. -/
def phaseRun (p : Phase) : List LifeEv → Option Phase
  | [] => some p
  | e :: rest =>
    match phaseStep p e with
    | none => none
    | some q => phaseRun q rest

/-- A trace the code can produce: accepted by the order automaton from
the live phase. -/
def wfTrace (t : List LifeEv) : Bool :=
  (phaseRun Phase.live t).isSome

/-- The state effect of one lifetime event on (current, updateCount)
of a Value with chain-update function `upd` and reset-on-read value
`rv`: a committed update applies the chain and counts; a reset-on-read
`Value()` call overwrites current with `rv`; close, exit and the
return of Stop touch no state. -/
def lifeStep (upd : ℤ → ℤ → ℤ) (rv : ℤ) (s : ℤ × Nat) :
    LifeEv → ℤ × Nat
  | .proc x => (upd s.1 x, s.2 + 1)
  | .readR => (rv, s.2)
  | _ => s

/-- Executes a lifetime trace over (current, updateCount). -/
def lifeExec (upd : ℤ → ℤ → ℤ) (rv : ℤ) (s : ℤ × Nat)
    (t : List LifeEv) : ℤ × Nat :=
  t.foldl (lifeStep upd rv) s

/-- C7's last clause exactly as the claim states it: once some `Stop()`
call has returned, no further change to current or updateCount occurs,
for every reset-on-read Value and every code-producible continuation. -/
def stopFrameClaim : Prop :=
  ∀ (upd : ℤ → ℤ → ℤ) (rv : ℤ) (pre post : List LifeEv),
    wfTrace (pre ++ post) = true → LifeEv.stopRet ∈ pre →
    lifeExec upd rv (0, 0) (pre ++ post) = lifeExec upd rv (0, 0) pre

/-! ## The periodic clock (src/internal/clock/periodic.go)

`PeriodicClock` owns one unbuffered tick channel; `Subscribe` (lines
52-55) returns that same channel on every call. By Go channel
semantics each value sent on a channel is received by exactly one
receiver, so a delivery schedule for n ticks among k subscribers is a
function assigning each tick to the subscriber that received it. -/

/-- Embeds the `PeriodicClock` struct fields that `Subscribe` touches:
the single tick channel, identified by a channel id. -/
structure PeriodicClock where
  interval : Nat
  tickChan : Nat
  stopChan : Nat

/-- Embeds `NewPeriodicClock` (lines 14-20): one tick channel and one
stop channel are allocated, named here by distinct channel ids. -/
def NewPeriodicClock (i : Nat) : PeriodicClock :=
  ⟨i, 0, 1⟩

/-- Embeds `Subscribe` (lines 52-55): it returns the clock's single
tick channel, the same one on every call. -/
def PeriodicClock.Subscribe (c : PeriodicClock) : Nat :=
  c.tickChan

/-- A delivery schedule of `n` ticks sent on one shared channel with
`k` receivers: Go delivers each send to exactly one receiver, so a
schedule assigns each tick its receiver. -/
def Delivery (n k : Nat) : Type :=
  Fin n → Fin k

/-- How many of the `n` ticks subscriber `j` received under schedule
`d`. -/
def receivedBy {n k : Nat} (d : Delivery n k) (j : Fin k) : Nat :=
  (Finset.univ.filter fun i => d i = j).card

/-- C2 exactly as the claim states it: in every execution, every
subscriber of the shared tick channel receives every emitted tick. -/
def clockBroadcastClaim : Prop :=
  ∀ (n k : Nat) (d : Delivery n k) (j : Fin k), receivedBy d j = n

/-! ## The clock's observable snapshot (clock.Stats)

Modelled from the spec: the simv `clock` package's snapshot
(`Stats()` returning TickCount, IsRunning and Interval, used by the
repository's demo and README) is not among the files under src;
src/internal/clock/periodic.go carries no tick counter or running
flag. Spec sections 3 and 4.1: the clock is {interval, running,
tickCount}, created stopped; Start begins emission, Stop ends it
permanently; the snapshot is read-only and side-effect-free, the tick
count is the number of ticks emitted so far, and the running flag is
true exactly between Start and Stop. -/

/-- Modelled from the spec: the clock's state {interval, running,
tickCount} (the clock.Stats code is not under src). -/
structure ClockState where
  interval : Nat
  running : Bool
  tickCount : Nat
deriving DecidableEq, Repr

/-- Modelled from the spec: a clock lifecycle event. -/
inductive ClockEv where
  | start
  | tick
  | stop
deriving DecidableEq, Repr

/-- Modelled from the spec: a clock is created stopped with zero ticks
and the configured interval. -/
def ClockState.new (i : Nat) : ClockState :=
  ⟨i, false, 0⟩

/-- Modelled from the spec: Start begins emission, each tick while
running is emitted and counted, Stop ends emission; the Bool is
whether the event emitted a tick to the subscribers. -/
def clockStep (s : ClockState) : ClockEv → ClockState × Bool
  | .start => ({ s with running := true }, false)
  | .tick =>
    if s.running then ({ s with tickCount := s.tickCount + 1 }, true)
    else (s, false)
  | .stop => ({ s with running := false }, false)

/-- Modelled from the spec: executing a clock trace yields the final
state and the number of ticks emitted to subscribers. -/
def clockExec (s : ClockState) : List ClockEv → ClockState × Nat
  | [] => (s, 0)
  | e :: rest =>
    let p := clockStep s e
    let r := clockExec p.1 rest
    (r.1, (if p.2 then 1 else 0) + r.2)

/-- The clock's lifecycle phases. -/
inductive ClockPhase where
  | created
  | running
  | stopped
deriving DecidableEq, Repr

/-- The clock lifecycle automaton: created (only Start), running
(ticks, then one Stop), stopped permanently (nothing further). -/
def clockPhase : ClockPhase → ClockEv → Option ClockPhase
  | .created, .start => some .running
  | .running, .tick => some .running
  | .running, .stop => some .stopped
  | _, _ => none

/-- Runs the clock lifecycle automaton. -/
def clockPhaseRun (p : ClockPhase) : List ClockEv → Option ClockPhase
  | [] => some p
  | e :: rest =>
    match clockPhase p e with
    | none => none
    | some q => clockPhaseRun q rest

/-- A clock trace respecting the lifecycle: Start first and once,
ticks only while running, at most one Stop, nothing after Stop. -/
def clockWf (t : List ClockEv) : Bool :=
  (clockPhaseRun ClockPhase.created t).isSome

/-- True exactly for the phase in which the clock emits. -/
def isRunPhase : ClockPhase → Bool
  | .running => true
  | _ => false

/-- Modelled from the spec: the snapshot Stats() returns
{TickCount, IsRunning, Interval}. -/
structure ClockStats where
  TickCount : Nat
  IsRunning : Bool
  Interval : Nat
deriving DecidableEq, Repr

/-- Modelled from the spec: the Stats() call as a state transition with
its result; it only reads the state. -/
def clockStatsCall (s : ClockState) : ClockState × ClockStats :=
  (s, ⟨s.tickCount, s.running, s.interval⟩)

/-! ## The seed registry (src/seed/seed.go lines 31-44)

`Init` runs its body through `sync.Once`; a second call finds the Once
consumed, the local `initialized` stays false, and the function
panics. -/

/-- Embeds the registry struct (masterSeed, nextStream). -/
structure SeedRegistry where
  masterSeed : Nat
  nextStream : Nat
deriving DecidableEq, Repr

/-- Embeds the package state: whether `registryOnce` has been consumed,
and the global registry pointer. -/
structure SeedState where
  onceDone : Bool
  globalRegistry : Option SeedRegistry

/-- Embeds `Init` (src/seed/seed.go lines 31-44): the first call builds
the registry through the Once; any later call leaves `initialized`
false and panics, mutating nothing. -/
def seedInit (masterSeed : Nat) (s : SeedState) :
    Except String SeedState :=
  if s.onceDone then Except.error "seed.Init called multiple times"
  else Except.ok ⟨true, some ⟨masterSeed, 0⟩⟩

/-! ## Concrete instruments used by witnesses -/

/-- The accumulate transform of the repository's examples:
new state = prior state + input. -/
def accumulate : Transformation ℤ :=
  ⟨"Accumulate", fun x s => some (s + x)⟩

/-- A transform chain whose Apply panics on the input 2 and otherwise
accumulates; used to exercise the panic path of `run`. -/
def tsBoom : List (Transformation ℤ) :=
  [⟨"Boom", fun x s => if x = 2 then none else some (s + x)⟩]

/-- A started Value over Int with empty configuration. -/
def startedValue : Value ℤ :=
  { transforms := [], resetOnRead := false, resetValue := 0,
    started := true, current := 0, updateCount := 0, updateHook := none }

/-- A hook that panics on every OnTransform notification and on no
other notification (the spec's concrete scenario). -/
def boomHook : UpdateHook ℤ :=
  ⟨fun _ _ => false, fun _ _ _ _ => true, fun _ => false⟩

/-- A transform that doubles its input, ignoring the state. -/
def doubler : Transformation ℤ :=
  ⟨"Double", fun x _ => some (x * 2)⟩

end Simv

namespace Simv

/-! ## Helper lemmas -/

theorem rwExec_state_append (a : List RWOp) :
    ∀ (b : List RWOp) (s : ℤ),
      stateAfter s (a ++ b) = stateAfter (stateAfter s a) b := by
  induction a with
  | nil => intro b s; rfl
  | cons e rest ih =>
    intro b s
    cases e <;> simp only [List.cons_append, stateAfter, rwExec] <;>
      exact ih b _

theorem rwExec_balance (w : List RWOp) :
    ∀ (s : ℤ), sumReads s w + stateAfter s w = s + sumCommits w := by
  induction w with
  | nil =>
    intro s
    simp [sumReads, stateAfter, rwExec, sumCommits]
  | cons e rest ih =>
    intro s
    cases e with
    | commit x =>
      have h := ih (s + x)
      simp only [sumReads, stateAfter, rwExec, rwStep, sumCommits,
        Option.toList, List.nil_append] at h ⊢
      linarith
    | readReset =>
      have h := ih 0
      simp only [sumReads, stateAfter, rwExec, rwStep, sumCommits,
        Option.toList, List.cons_append, List.nil_append,
        List.sum_cons] at h ⊢
      linarith

/-! ## C1 -/

/-- C1, counterexample: the claim's equality over an arbitrary window is
false. Commit 5, then take the window holding only the reset-on-read
call: the window's reads sum to 5, its committed updates to 0, because
the value was pending from before the window began. -/
theorem resetOnReadWindowClaim_false : ¬ resetOnReadWindowClaim := by
  intro h
  exact absurd (h [RWOp.commit 5] [RWOp.readReset]) (by decide)

/-- C1 (amended): the reset-on-read conservation law with the pending
state accounted for. From any state s, the sum of values returned by
reset-on-read calls in a window plus the state left pending equals s
plus the raw updates committed in the window; over a window of a trace
the boundary terms are the pending states at its edges; over a full
lifetime from state 0, reads plus the final pending state equal all
committed updates — so no update is lost and none is double counted. -/
theorem resetOnRead_conservation :
    (∀ (s : ℤ) (w : List RWOp),
      sumReads s w + stateAfter s w = s + sumCommits w) ∧
    (∀ (pre w : List RWOp),
      sumReads (stateAfter 0 pre) w
        = sumCommits w + stateAfter 0 pre - stateAfter 0 (pre ++ w)) ∧
    (∀ (t : List RWOp), sumReads 0 t + stateAfter 0 t = sumCommits t) := by
  refine ⟨fun s w => rwExec_balance w s, fun pre w => ?_, fun t => ?_⟩
  · have h := rwExec_balance w (stateAfter 0 pre)
    rw [rwExec_state_append pre w 0] at *
    linarith
  · have h := rwExec_balance t 0
    linarith

/-! ## C2 -/

/-- C2, counterexample: with two subscribers sharing the single tick
channel, a delivery schedule in which subscriber 1 takes the only tick
leaves subscriber 0 with zero received ticks, refuting that every
subscriber receives every tick. -/
theorem clockBroadcastClaim_false : ¬ clockBroadcastClaim := by
  intro h
  exact absurd (h 1 2 (fun _ => 1) 0) (by decide)

/-- C2 (amended): every Subscribe call returns the clock's single
shared tick channel, and each emitted tick is received by exactly one
subscriber — the per-subscriber received counts always partition the
tick count, and a sole subscriber receives every tick. -/
theorem tick_delivery_distribution :
    (∀ (n k : Nat) (d : Delivery n k), ∑ j : Fin k, receivedBy d j = n) ∧
    (∀ (n : Nat) (d : Delivery n 1) (j : Fin 1), receivedBy d j = n) ∧
    (∀ c : PeriodicClock, c.Subscribe = c.tickChan) := by
  refine ⟨fun n k d => ?_, fun n d j => ?_, fun c => rfl⟩
  · unfold receivedBy
    rw [← Finset.card_eq_sum_card_fiberwise (f := d)
      (fun x _ => Finset.mem_univ (d x))]
    simp
  · unfold receivedBy
    rw [Finset.filter_true_of_mem (fun i _ => Subsingleton.elim (d i) j)]
    simp

/-! ## C3 -/

/-- C3, the code at the failing input: `SetUpdateHook(nil)` converts the
nil hook to the nil `UpdateHook[T]` interface value, which boxes into a
nil `any`, and `sync/atomic.Value.Store(nil)` panics — the hook is not
removed. A non-nil hook is installed without any lifecycle check. -/
theorem setUpdateHook_nil_store_panics :
    ∀ (v : Value ℤ),
      v.SetUpdateHook none
        = Except.error "sync/atomic: store of nil value into Value" ∧
      ∀ (h : UpdateHook ℤ),
        v.SetUpdateHook (some h)
          = Except.ok { v with updateHook := some h } := by
  intro v
  exact ⟨rfl, fun h => rfl⟩

/-! ## C9 -/

/-- C9 (confirmed): Stats returns the snapshot of updateCount, current
value and transform count, and is side-effect-free: deleting every
Stats call from any serialised operation sequence leaves the final
state unchanged, any number of consecutive Stats calls leave the state
unchanged, and the next Value() call (reset-on-read included) returns
exactly what it would have returned without them. -/
theorem stats_side_effect_free :
    (∀ (v : Value ℤ),
      v.Stats = ⟨v.updateCount, v.current, v.transforms.length⟩) ∧
    (∀ (l : List (VOp ℤ)) (v : Value ℤ),
      v.execOps (l.filter fun o => !o.isStats) = v.execOps l) ∧
    (∀ (v : Value ℤ) (n : Nat),
      v.execOps (List.replicate n VOp.statsCall) = v ∧
      (v.execOps (List.replicate n VOp.statsCall)).read = v.read) := by
  have filt : ∀ (l : List (VOp ℤ)) (v : Value ℤ),
      Value.execOps v (l.filter fun o => !o.isStats) = v.execOps l := by
    intro l
    induction l with
    | nil => intro v; rfl
    | cons o rest ih =>
      intro v
      cases o with
      | statsCall =>
        simpa [Value.execOps, Value.step, VOp.isStats] using ih v
      | valueCall =>
        simpa [Value.execOps, Value.step, VOp.isStats]
          using ih ((Value.read v).1)
      | update x =>
        simp only [List.filter, VOp.isStats, Bool.not_false,
          Value.execOps, List.foldl_cons]
        exact ih (Value.step v (VOp.update x))
  have repl : ∀ (n : Nat) (v : Value ℤ),
      Value.execOps v (List.replicate n VOp.statsCall) = v := by
    intro n
    induction n with
    | zero => intro v; rfl
    | succ m ih =>
      intro v
      simpa [List.replicate, Value.execOps, Value.step] using ih v
  exact ⟨fun v => rfl, filt, fun v n => ⟨repl n v, by rw [repl n v]⟩⟩

/-! ## C4 -/

theorem runLoop_append_ok (ts : List (Transformation ℤ)) :
    ∀ (pre rest : List ℤ) (init c : ℤ) (cnt : Nat),
      procAll ts pre init = some c →
      runLoop ts (pre ++ rest) init cnt
        = runLoop ts rest c (cnt + pre.length) := by
  intro pre
  induction pre with
  | nil =>
    intro rest init c cnt h
    simp only [procAll, Option.some.injEq] at h
    subst h
    simp [runLoop]
  | cons x xs ih =>
    intro rest init c cnt h
    simp only [procAll] at h
    cases hx : chainApply ts x init with
    | none => rw [hx] at h; exact absurd h (by simp)
    | some y =>
      rw [hx] at h
      have h2 := ih rest y c (cnt + 1) h
      have e : cnt + (x :: xs).length = cnt + 1 + xs.length := by
        simp only [List.length_cons]
        omega
      simp only [List.cons_append, runLoop, hx]
      rw [e]
      exact h2

/-- C4 (confirmed): when a transform's Apply panics on an item, the
function-level recover in `run` ends the loop — no later item is ever
processed — with `current` and `updateCount` still holding their values
from before the faulting update; the deferred close of `done` runs, so
Stop() returns, but the exclusive lock taken for that update is never
released, so every subsequent Value() or Stats() call blocks forever. -/
theorem transform_panic_wedges_value (ts : List (Transformation ℤ))
    (pre : List ℤ) (x : ℤ) (post : List ℤ) (init c : ℤ)
    (hpre : procAll ts pre init = some c)
    (hx : chainApply ts x c = none) :
    runP ts (pre ++ x :: post) init = ⟨c, pre.length, true, true⟩ ∧
    valueReadAfter (runP ts (pre ++ x :: post) init) = none ∧
    statsReadAfter (runP ts (pre ++ x :: post) init) = none ∧
    stopReturns (runP ts (pre ++ x :: post) init) = true := by
  have h1 : runP ts (pre ++ x :: post) init = ⟨c, pre.length, true, true⟩ := by
    unfold runP
    rw [runLoop_append_ok ts pre (x :: post) init c 0 hpre]
    simp [runLoop, hx]
  refine ⟨h1, ?_, ?_, ?_⟩ <;> rw [h1] <;> rfl

/-- C4, witness: one accumulating transform that panics on input 2;
items 1, 2, 3 from state 0. Item 1 commits state 1; item 2 panics the
chain; item 3 is never processed; the run result keeps state 1 and one
counted update with the lock held and done closed, Stop returns, and
both reads block. -/
theorem transform_panic_wedges_value_witness :
    runP tsBoom ([1] ++ 2 :: [3]) 0 = ⟨1, 1, true, true⟩ ∧
    valueReadAfter (runP tsBoom ([1] ++ 2 :: [3]) 0) = none ∧
    statsReadAfter (runP tsBoom ([1] ++ 2 :: [3]) 0) = none ∧
    stopReturns (runP tsBoom ([1] ++ 2 :: [3]) 0) = true :=
  transform_panic_wedges_value tsBoom [1] 2 [3] 0 1 (by decide) (by decide)

/-! ## C5 -/

theorem chainTrace_ind (ts : List (Transformation ℤ)) :
    ∀ (x s fin : ℤ) (log : List (TransApp ℤ)),
      chainTrace ts x s = (log, some fin) →
      log.length = ts.length ∧
      log.map TransApp.name = ts.map Transformation.name ∧
      (∀ e ∈ log, e.stateSeen = s) ∧
      log.map TransApp.input = (x :: log.map TransApp.output).dropLast ∧
      (x :: log.map TransApp.output).getLast? = some fin ∧
      chainApply ts x s = some fin := by
  induction ts with
  | nil =>
    intro x s fin log h
    simp only [chainTrace, Prod.mk.injEq, Option.some.injEq] at h
    obtain ⟨h1, h2⟩ := h
    subst h1; subst h2
    simp [chainApply]
  | cons t rest ih =>
    intro x s fin log h
    simp only [chainTrace] at h
    cases hx : t.apply x s with
    | none =>
      rw [hx] at h
      simp at h
    | some y =>
      rw [hx] at h
      dsimp only at h
      rcases hr : chainTrace rest y s with ⟨r1, r2⟩
      rw [hr] at h
      rw [Prod.mk.injEq] at h
      obtain ⟨hlog, hr2⟩ := h
      dsimp only at hlog hr2
      subst hlog
      obtain ⟨ihl, ihn, ihs, ihi, ihg, ihc⟩ :=
        ih y s fin r1 (by rw [hr, hr2])
      refine ⟨?_, ?_, ?_, ?_, ?_, ?_⟩
      · simpa using ihl
      · simpa using ihn
      · intro e he
        rcases List.mem_cons.mp he with h1 | h1
        · rw [h1]
        · exact ihs e h1
      · simp only [List.map_cons]
        rw [List.dropLast_cons₂]
        simpa using ihi
      · simp only [List.map_cons]
        rw [List.getLast?_cons_cons]
        exact ihg
      · simp only [chainApply, hx]
        exact ihc

/-- C5 (confirmed): within one update the transforms run in exactly
registration order — the recorded names are the pipeline's names in
order, the first transform receives the incoming item and each later
one the previous transform's output — every transform observes through
its state parameter the sink state as it was before the update began,
and the chain's final output is committed as the new state (with one
counted update) only after the whole chain has run. -/
theorem transform_chain_order_and_state (ts : List (Transformation ℤ))
    (x s fin : ℤ) (log : List (TransApp ℤ))
    (h : chainTrace ts x s = (log, some fin)) :
    log.length = ts.length ∧
    log.map TransApp.name = ts.map Transformation.name ∧
    (∀ e ∈ log, e.stateSeen = s) ∧
    log.map TransApp.input = (x :: log.map TransApp.output).dropLast ∧
    (x :: log.map TransApp.output).getLast? = some fin ∧
    runP ts [x] s = ⟨fin, 1, false, true⟩ := by
  obtain ⟨h1, h2, h3, h4, h5, h6⟩ := chainTrace_ind ts x s fin log h
  refine ⟨h1, h2, h3, h4, h5, ?_⟩
  unfold runP
  simp [runLoop, h6]

/-- C5, witness: the two-step pipeline accumulate then double, item 7
against pre-update state 10: accumulate sees (7, 10) and yields 17,
double sees (17, 10) and yields 34, both observe state 10, and 34 is
committed as the single counted update. -/
theorem transform_chain_order_and_state_witness :
    ([(⟨"Accumulate", 7, 17, 10⟩ : TransApp ℤ), ⟨"Double", 17, 34, 10⟩].length
      = [accumulate, doubler].length) ∧
    ([(⟨"Accumulate", 7, 17, 10⟩ : TransApp ℤ), ⟨"Double", 17, 34, 10⟩].map
        TransApp.name
      = [accumulate, doubler].map Transformation.name) ∧
    (∀ e ∈ [(⟨"Accumulate", 7, 17, 10⟩ : TransApp ℤ), ⟨"Double", 17, 34, 10⟩],
      e.stateSeen = 10) ∧
    ([(⟨"Accumulate", 7, 17, 10⟩ : TransApp ℤ), ⟨"Double", 17, 34, 10⟩].map
        TransApp.input
      = ((7 : ℤ) :: [(⟨"Accumulate", 7, 17, 10⟩ : TransApp ℤ),
          ⟨"Double", 17, 34, 10⟩].map TransApp.output).dropLast) ∧
    (((7 : ℤ) :: [(⟨"Accumulate", 7, 17, 10⟩ : TransApp ℤ),
        ⟨"Double", 17, 34, 10⟩].map TransApp.output).getLast? = some 34) ∧
    runP [accumulate, doubler] [7] 10 = ⟨34, 1, false, true⟩ :=
  transform_chain_order_and_state [accumulate, doubler] 7 10 34
    [⟨"Accumulate", 7, 17, 10⟩, ⟨"Double", 17, 34, 10⟩] (by decide)

/-! ## C8 -/

theorem hookChain_spec (ts : List (Transformation ℤ)) :
    ∀ (hb : UpdateHook ℤ) (x s fin : ℤ),
      chainApply ts x s = some fin →
      (hookChain (some hb) ts x s).1 = some fin ∧
      (hookChain (some hb) ts x s).2.length = ts.length ∧
      (hookChain none ts x s).1 = some fin ∧
      (hookChain none ts x s).2 = [] := by
  induction ts with
  | nil =>
    intro hb x s fin h
    simp only [chainApply, Option.some.injEq] at h
    subst h
    simp [hookChain]
  | cons t rest ih =>
    intro hb x s fin h
    simp only [chainApply] at h
    cases hx : t.apply x s with
    | none => rw [hx] at h; exact absurd h (by simp)
    | some y =>
      rw [hx] at h
      obtain ⟨i1, i2, i3, i4⟩ := ih hb y s fin h
      refine ⟨?_, ?_, ?_, ?_⟩ <;>
        simp [hookChain, hx, i1, i2, i3, i4, Nat.add_comm]

/-- C8 (confirmed): a hook that panics in any notification never
prevents the commit — the update still stores the chain's final value
and increments the update counter, identically to a hook-free run —
and no notification of the update is suppressed: all of OnInput, one
OnTransform per transform and AfterUpdate are issued, each isolated by
safeHookCall, whatever the hook's fault behaviour. -/
theorem hook_faults_isolated (ts : List (Transformation ℤ))
    (hb : UpdateHook ℤ) (x cur : ℤ) (cnt : Nat) (fin : ℤ)
    (hchain : chainApply ts x cur = some fin) :
    (processItem ts (some hb) x cur cnt).1 = some (fin, cnt + 1) ∧
    (processItem ts (some hb) x cur cnt).1
      = (processItem ts none x cur cnt).1 ∧
    (processItem ts (some hb) x cur cnt).2.length = ts.length + 2 ∧
    (processItem ts (some hb) x cur cnt).2.head?
      = some (HookEv.onInput x cur (hb.onInputFaults x cur)) ∧
    (processItem ts (some hb) x cur cnt).2.getLast?
      = some (HookEv.afterUpdate fin (hb.afterUpdateFaults fin)) := by
  obtain ⟨h1, h2, h3, h4⟩ := hookChain_spec ts hb x cur fin hchain
  rcases hcs : hookChain (some hb) ts x cur with ⟨o1, evs1⟩
  rcases hcn : hookChain none ts x cur with ⟨o2, evs2⟩
  rw [hcs] at h1 h2
  rw [hcn] at h3 h4
  dsimp only at h1 h2 h3 h4
  subst h1; subst h3; subst h4
  refine ⟨?_, ?_, ?_, ?_, ?_⟩
  · simp [processItem, hcs]
  · simp [processItem, hcs, hcn]
  · simp [processItem, hcs, h2]
  · simp [processItem, hcs]
  · simp only [processItem, hcs]
    rw [List.getLast?_append_of_ne_nil _ (by simp)]
    rfl

/-- C8, witness: the spec's concrete scenario — a hook faulting on
every OnTransform notification, one accumulate transform, input 7
against state 42 and update count 5: the commit still happens (state
49, count 6), matching the hook-free run, and all three notifications
are issued. -/
theorem hook_faults_isolated_witness :
    (processItem [accumulate] (some boomHook) 7 42 5).1 = some (49, 6) ∧
    (processItem [accumulate] (some boomHook) 7 42 5).1
      = (processItem [accumulate] none 7 42 5).1 ∧
    (processItem [accumulate] (some boomHook) 7 42 5).2.length
      = [accumulate].length + 2 ∧
    (processItem [accumulate] (some boomHook) 7 42 5).2.head?
      = some (HookEv.onInput 7 42 (boomHook.onInputFaults 7 42)) ∧
    (processItem [accumulate] (some boomHook) 7 42 5).2.getLast?
      = some (HookEv.afterUpdate 49 (boomHook.afterUpdateFaults 49)) :=
  hook_faults_isolated [accumulate] boomHook 7 42 5 49 (by decide)

/-! ## C6 -/

/-- C6 (confirmed): every usage or lifecycle violation aborts the call:
Start on an already-started Value panics, AddTransform and
EnableResetOnRead after Start panic (never a silent no-op), and a
second seed.Init panics; each check precedes any mutation in the
source, so the aborted call performs no state change. -/
theorem lifecycle_violations_abort (v : Value ℤ) (t : Transformation ℤ)
    (rv : ℤ) (hs : v.started = true) :
    v.AddTransform t = Except.error "cannot add transform after Start()" ∧
    v.EnableResetOnRead rv
      = Except.error "cannot enable reset-on-read after Start()" ∧
    v.Start = Except.error "already started" ∧
    (∀ (m k : Nat) (s s2 : SeedState), seedInit m s = Except.ok s2 →
      seedInit k s2 = Except.error "seed.Init called multiple times") := by
  refine ⟨?_, ?_, ?_, ?_⟩
  · simp [Value.AddTransform, hs]
  · simp [Value.EnableResetOnRead, hs]
  · simp [Value.Start, hs]
  · intro m k s s2 hinit
    unfold seedInit at hinit ⊢
    rcases hdone : s.onceDone with _ | _
    · rw [if_neg (by simp [hdone])] at hinit
      injection hinit with h2
      rw [← h2]
      simp
    · rw [if_pos hdone] at hinit
      exact Except.noConfusion hinit

/-- C6, witness: the violations at a concrete started Value, and a
second seed.Init after a concrete first one. -/
theorem lifecycle_violations_abort_witness :
    startedValue.AddTransform accumulate
      = Except.error "cannot add transform after Start()" ∧
    startedValue.EnableResetOnRead 0
      = Except.error "cannot enable reset-on-read after Start()" ∧
    startedValue.Start = Except.error "already started" ∧
    (∀ (m k : Nat) (s s2 : SeedState), seedInit m s = Except.ok s2 →
      seedInit k s2 = Except.error "seed.Init called multiple times") :=
  lifecycle_violations_abort startedValue accumulate 0 rfl

/-! ## C7 -/

theorem phaseRun_split (xs : List LifeEv) :
    ∀ (ys : List LifeEv) (p r : Phase),
      phaseRun p (xs ++ ys) = some r →
      ∃ q, phaseRun p xs = some q ∧ phaseRun q ys = some r := by
  induction xs with
  | nil =>
    intro ys p r h
    exact ⟨p, rfl, h⟩
  | cons e rest ih =>
    intro ys p r h
    simp only [List.cons_append, phaseRun] at h ⊢
    cases hs : phaseStep p e with
    | none => rw [hs] at h; exact absurd h (by simp)
    | some q0 =>
      rw [hs] at h
      exact ih ys q0 r h

theorem phaseRun_stopped (xs : List LifeEv) :
    ∀ (q : Phase), phaseRun Phase.stopped xs = some q →
      q = Phase.stopped ∧
      ∀ e ∈ xs, e = LifeEv.readR ∨ e = LifeEv.stopRet := by
  induction xs with
  | nil =>
    intro q h
    simp only [phaseRun, Option.some.injEq] at h
    exact ⟨h.symm, by simp⟩
  | cons e rest ih =>
    intro q h
    cases e <;> simp only [phaseRun, phaseStep] at h
    · exact absurd h (by simp)
    · exact absurd h (by simp)
    · exact absurd h (by simp)
    · rcases ih q h with ⟨h1, h2⟩
      refine ⟨h1, ?_⟩
      intro e2 he2
      rcases List.mem_cons.mp he2 with h3 | h3
      · exact Or.inr h3
      · exact h2 e2 h3
    · rcases ih q h with ⟨h1, h2⟩
      refine ⟨h1, ?_⟩
      intro e2 he2
      rcases List.mem_cons.mp he2 with h3 | h3
      · exact Or.inl h3
      · exact h2 e2 h3

theorem stopRet_reaches_stopped (xs : List LifeEv) :
    ∀ (p q : Phase), phaseRun p xs = some q → LifeEv.stopRet ∈ xs →
      q = Phase.stopped := by
  induction xs with
  | nil =>
    intro p q _ hm
    exact absurd hm (by simp)
  | cons e rest ih =>
    intro p q h hm
    simp only [phaseRun] at h
    cases hs : phaseStep p e with
    | none => rw [hs] at h; exact absurd h (by simp)
    | some r =>
      rw [hs] at h
      rcases List.mem_cons.mp hm with h1 | h1
      · subst h1
        have hr : r = Phase.stopped := by
          cases p <;> simp_all [phaseStep]
        subst hr
        exact (phaseRun_stopped rest q h).1
      · exact ih r q h h1

theorem reach_stopped_vexit (xs : List LifeEv) :
    ∀ (p q : Phase), phaseRun p xs = some q → p ≠ Phase.stopped →
      q = Phase.stopped → LifeEv.vexit ∈ xs := by
  induction xs with
  | nil =>
    intro p q h hp hq
    simp only [phaseRun, Option.some.injEq] at h
    rw [h] at hp
    exact absurd hq hp
  | cons e rest ih =>
    intro p q h hp hq
    simp only [phaseRun] at h
    cases hs : phaseStep p e with
    | none => rw [hs] at h; exact absurd h (by simp)
    | some r =>
      rw [hs] at h
      cases e with
      | vexit => exact List.mem_cons_self _ _
      | proc x =>
        have hr : r = Phase.live := by
          cases p <;> simp_all [phaseStep]
        subst hr
        exact List.mem_cons_of_mem _ (ih Phase.live q h (by simp) hq)
      | uclose =>
        have hr : r = Phase.closing := by
          cases p <;> simp_all [phaseStep]
        subst hr
        exact List.mem_cons_of_mem _ (ih Phase.closing q h (by simp) hq)
      | readR =>
        have hr : r = p := by
          cases p <;> simp_all [phaseStep]
        exact List.mem_cons_of_mem _
          (ih r q h (by rw [hr]; exact hp) hq)
      | stopRet =>
        have hr : p = Phase.stopped := by
          cases p <;> simp_all [phaseStep]
        exact absurd hr hp

theorem lifeExec_tail_frame (upd : ℤ → ℤ → ℤ) (rv : ℤ)
    (post : List LifeEv) :
    ∀ (s : ℤ × Nat),
      (∀ e ∈ post, e = LifeEv.readR ∨ e = LifeEv.stopRet) →
      (lifeExec upd rv s post).2 = s.2 ∧
      ((lifeExec upd rv s post).1 ≠ s.1 → LifeEv.readR ∈ post) := by
  induction post with
  | nil =>
    intro s _
    exact ⟨rfl, fun hne => absurd rfl hne⟩
  | cons e rest ih =>
    intro s hall
    have he := hall e (List.mem_cons_self _ _)
    have hrest : ∀ e2 ∈ rest, e2 = LifeEv.readR ∨ e2 = LifeEv.stopRet :=
      fun e2 h2 => hall e2 (List.mem_cons_of_mem _ h2)
    rcases he with h1 | h1
    · subst h1
      refine ⟨?_, fun _ => List.mem_cons_self _ _⟩
      have := ih (lifeStep upd rv s LifeEv.readR) hrest
      simpa [lifeExec, lifeStep] using this.1
    · subst h1
      have := ih (lifeStep upd rv s LifeEv.stopRet) hrest
      refine ⟨?_, fun hne => ?_⟩
      · simpa [lifeExec, lifeStep] using this.1
      · have h2 := this.2 (by simpa [lifeExec, lifeStep] using hne)
        exact List.mem_cons_of_mem _ h2

/-- C7, counterexample: the claim's final clause fails. With
reset-on-read enabled, after the upstream closes, the consumer exits
and Stop returns, a reset-on-read Value() call still overwrites
`current` with the reset value: current is 5 when Stop returns and 0
after the later read. -/
theorem stopFrameClaim_false : ¬ stopFrameClaim := by
  intro h
  have h2 := h (fun s x => s + x) 0
    [LifeEv.proc 5, LifeEv.uclose, LifeEv.vexit, LifeEv.stopRet]
    [LifeEv.readR] (by decide) (by decide)
  exact absurd h2 (by decide)

/-- C7 (amended): Stop provides the drain guarantee and is idempotent —
in every code-producible trace a Stop return is preceded by the
consumer goroutine's exit, a returned Stop is a pure no-op on the
state, and after some Stop has returned the update counter never
changes again and `current` can change only through a reset-on-read
Value() call (no consumer-task update occurs); the claim's stronger
"no further state change to current" holds only for the consumer task,
not for reset-on-read readers. -/
theorem stop_drain_guarantee (upd : ℤ → ℤ → ℤ) (rv : ℤ)
    (pre post : List LifeEv) (hwf : wfTrace (pre ++ post) = true)
    (hstop : LifeEv.stopRet ∈ pre) :
    LifeEv.vexit ∈ pre ∧
    (lifeExec upd rv (0, 0) (pre ++ post)).2
      = (lifeExec upd rv (0, 0) pre).2 ∧
    ((lifeExec upd rv (0, 0) (pre ++ post)).1
        ≠ (lifeExec upd rv (0, 0) pre).1 → LifeEv.readR ∈ post) ∧
    (∀ (t : List LifeEv) (s : ℤ × Nat),
      lifeExec upd rv s (t ++ [LifeEv.stopRet]) = lifeExec upd rv s t) := by
  have hsome : ∃ r, phaseRun Phase.live (pre ++ post) = some r := by
    unfold wfTrace at hwf
    exact Option.isSome_iff_exists.mp hwf
  obtain ⟨r, hr⟩ := hsome
  obtain ⟨q, hq, hq2⟩ := phaseRun_split pre post Phase.live r hr
  have hqs : q = Phase.stopped := stopRet_reaches_stopped pre Phase.live q hq hstop
  subst hqs
  have hvex : LifeEv.vexit ∈ pre :=
    reach_stopped_vexit pre Phase.live Phase.stopped hq (by simp) rfl
  have hall := (phaseRun_stopped post r hq2).2
  have hframe := lifeExec_tail_frame upd rv post
    (lifeExec upd rv (0, 0) pre) hall
  have happ : lifeExec upd rv (0, 0) (pre ++ post)
      = lifeExec upd rv (lifeExec upd rv (0, 0) pre) post := by
    simp [lifeExec, List.foldl_append]
  refine ⟨hvex, ?_, ?_, ?_⟩
  · rw [happ]
    exact hframe.1
  · intro hne
    rw [happ] at hne
    exact hframe.2 hne
  · intro t s
    simp [lifeExec, List.foldl_append, lifeStep]

/-- C7, witness: the concrete trace update 5, upstream close, consumer
exit, Stop return, then one reset-on-read read: the exit precedes the
Stop return, the update counter stays 1 afterwards, and the only
post-stop change to current comes from the read. -/
theorem stop_drain_guarantee_witness :
    LifeEv.vexit ∈
      [LifeEv.proc 5, LifeEv.uclose, LifeEv.vexit, LifeEv.stopRet] ∧
    (lifeExec (fun s x => s + x) 0 (0, 0)
        ([LifeEv.proc 5, LifeEv.uclose, LifeEv.vexit, LifeEv.stopRet]
          ++ [LifeEv.readR])).2
      = (lifeExec (fun s x => s + x) 0 (0, 0)
          [LifeEv.proc 5, LifeEv.uclose, LifeEv.vexit, LifeEv.stopRet]).2 ∧
    ((lifeExec (fun s x => s + x) 0 (0, 0)
          ([LifeEv.proc 5, LifeEv.uclose, LifeEv.vexit, LifeEv.stopRet]
            ++ [LifeEv.readR])).1
        ≠ (lifeExec (fun s x => s + x) 0 (0, 0)
            [LifeEv.proc 5, LifeEv.uclose, LifeEv.vexit, LifeEv.stopRet]).1
      → LifeEv.readR ∈ [LifeEv.readR]) ∧
    (∀ (t : List LifeEv) (s : ℤ × Nat),
      lifeExec (fun s2 x => s2 + x) 0 s (t ++ [LifeEv.stopRet])
        = lifeExec (fun s2 x => s2 + x) 0 s t) :=
  stop_drain_guarantee (fun s x => s + x) 0
    [LifeEv.proc 5, LifeEv.uclose, LifeEv.vexit, LifeEv.stopRet]
    [LifeEv.readR] (by decide) (by decide)

/-! ## C10 -/

theorem clockExec_tickCount (evs : List ClockEv) :
    ∀ (s : ClockState),
      (clockExec s evs).1.tickCount = s.tickCount + (clockExec s evs).2 ∧
      (clockExec s evs).1.interval = s.interval := by
  induction evs with
  | nil =>
    intro s
    simp [clockExec]
  | cons e rest ih =>
    intro s
    cases e with
    | start =>
      have h := ih { s with running := true }
      simp [clockExec, clockStep] at h ⊢
      omega
    | stop =>
      have h := ih { s with running := false }
      simp [clockExec, clockStep] at h ⊢
      omega
    | tick =>
      by_cases hr : s.running
      · have h := ih { s with tickCount := s.tickCount + 1 }
        simp [clockExec, clockStep, hr] at h ⊢
        omega
      · have h := ih s
        simp [clockExec, clockStep, hr] at h ⊢
        omega

theorem clockExec_running (evs : List ClockEv) :
    ∀ (p q : ClockPhase) (s : ClockState),
      clockPhaseRun p evs = some q → s.running = isRunPhase p →
      (clockExec s evs).1.running = isRunPhase q := by
  induction evs with
  | nil =>
    intro p q s h hs
    simp only [clockPhaseRun, Option.some.injEq] at h
    rw [← h]
    exact hs
  | cons e rest ih =>
    intro p q s h hs
    simp only [clockPhaseRun] at h
    cases hp : clockPhase p e with
    | none => rw [hp] at h; exact absurd h (by simp)
    | some r =>
      rw [hp] at h
      cases p <;> cases e <;> simp [clockPhase] at hp
      · subst hp
        have : ({ s with running := true } : ClockState).running
            = isRunPhase ClockPhase.running := by simp [isRunPhase]
        simpa [clockExec, clockStep] using ih ClockPhase.running q _ h this
      · subst hp
        have hrun : s.running = true := by
          simpa [isRunPhase] using hs
        have := ih ClockPhase.running q
          { s with tickCount := s.tickCount + 1 } h
          (by simpa [isRunPhase] using hrun)
        simpa [clockExec, clockStep, hrun] using this
      · subst hp
        have : ({ s with running := false } : ClockState).running
            = isRunPhase ClockPhase.stopped := by simp [isRunPhase]
        simpa [clockExec, clockStep] using ih ClockPhase.stopped q _ h this

theorem clockPhaseRun_mem (evs : List ClockEv) :
    ∀ (q : ClockPhase),
      (clockPhaseRun ClockPhase.created evs = some q →
        (isRunPhase q = true ↔
          (ClockEv.start ∈ evs ∧ ClockEv.stop ∉ evs))) ∧
      (clockPhaseRun ClockPhase.running evs = some q →
        (isRunPhase q = true ↔ ClockEv.stop ∉ evs)) ∧
      (clockPhaseRun ClockPhase.stopped evs = some q → evs = []) := by
  induction evs with
  | nil =>
    intro q
    refine ⟨?_, ?_, ?_⟩ <;> intro h <;>
      simp only [clockPhaseRun, Option.some.injEq] at h
    · rw [← h]; simp [isRunPhase]
    · rw [← h]; simp [isRunPhase]
    · rfl
  | cons e rest ih =>
    intro q
    refine ⟨?_, ?_, ?_⟩ <;> intro h
    · cases e <;> simp only [clockPhaseRun, clockPhase] at h
      · have h2 := (ih q).2.1 h
        rw [h2]
        constructor
        · intro hno
          refine ⟨List.mem_cons_self _ _, ?_⟩
          intro hmem
          rcases List.mem_cons.mp hmem with h3 | h3
          · exact ClockEv.noConfusion h3
          · exact hno h3
        · intro hpair h3
          exact hpair.2 (List.mem_cons_of_mem _ h3)
      · exact absurd h (by simp)
      · exact absurd h (by simp)
    · cases e <;> simp only [clockPhaseRun, clockPhase] at h
      · exact absurd h (by simp)
      · have h2 := (ih q).2.1 h
        rw [h2]
        constructor
        · intro hno hmem
          rcases List.mem_cons.mp hmem with h3 | h3
          · exact ClockEv.noConfusion h3
          · exact hno h3
        · intro hno
          exact fun h3 => hno (List.mem_cons_of_mem _ h3)
      · have h2 := (ih q).2.2 h
        subst h2
        simp only [clockPhaseRun, Option.some.injEq] at h
        rw [← h]
        simp [isRunPhase]
    · cases e <;> simp only [clockPhaseRun, clockPhase] at h <;>
        exact absurd h (by simp)

/-- C10 (confirmed; the clock Stats code is modelled from the spec):
over every lifecycle-respecting clock trace, the snapshot's tick count
equals the number of ticks emitted to subscribers so far, its interval
is the configured one, the running flag is true exactly when Start has
happened and Stop has not, and the Stats call itself is read-only and
side-effect-free. -/
theorem clock_snapshot (i : Nat) (evs : List ClockEv)
    (hwf : clockWf evs = true) :
    (clockExec (ClockState.new i) evs).1.tickCount
      = (clockExec (ClockState.new i) evs).2 ∧
    (clockExec (ClockState.new i) evs).1.interval = i ∧
    ((clockExec (ClockState.new i) evs).1.running = true ↔
      (ClockEv.start ∈ evs ∧ ClockEv.stop ∉ evs)) ∧
    (∀ s : ClockState, (clockStatsCall s).1 = s ∧
      (clockStatsCall s).2 = ⟨s.tickCount, s.running, s.interval⟩) := by
  unfold clockWf at hwf
  obtain ⟨q, hq⟩ := Option.isSome_iff_exists.mp hwf
  have ht := clockExec_tickCount evs (ClockState.new i)
  have hrun := clockExec_running evs ClockPhase.created q
    (ClockState.new i) hq rfl
  have hmem := (clockPhaseRun_mem evs q).1 hq
  refine ⟨?_, ?_, ?_, fun s => ⟨rfl, rfl⟩⟩
  · have h1 := ht.1
    simpa [ClockState.new] using h1
  · simpa [ClockState.new] using ht.2
  · rw [hrun]
    exact hmem

/-- C10, witness: interval 100, trace Start, two ticks, Stop: the final
snapshot counts the 2 emitted ticks, keeps interval 100, and is not
running since Stop happened. -/
theorem clock_snapshot_witness :
    (clockExec (ClockState.new 100)
        [ClockEv.start, ClockEv.tick, ClockEv.tick, ClockEv.stop]).1.tickCount
      = (clockExec (ClockState.new 100)
          [ClockEv.start, ClockEv.tick, ClockEv.tick, ClockEv.stop]).2 ∧
    (clockExec (ClockState.new 100)
        [ClockEv.start, ClockEv.tick, ClockEv.tick, ClockEv.stop]).1.interval
      = 100 ∧
    ((clockExec (ClockState.new 100)
          [ClockEv.start, ClockEv.tick, ClockEv.tick, ClockEv.stop]).1.running
        = true ↔
      (ClockEv.start ∈ [ClockEv.start, ClockEv.tick, ClockEv.tick,
          ClockEv.stop] ∧
        ClockEv.stop ∉ [ClockEv.start, ClockEv.tick, ClockEv.tick,
          ClockEv.stop])) ∧
    (∀ s : ClockState, (clockStatsCall s).1 = s ∧
      (clockStatsCall s).2 = ⟨s.tickCount, s.running, s.interval⟩) :=
  clock_snapshot 100 [ClockEv.start, ClockEv.tick, ClockEv.tick, ClockEv.stop]
    (by decide)

end Simv
